import Mathlib

/-!
Verification of the two algorithms in this repository against their
natural-language specification.

* `src/misoto/binary_search.py` — iterative binary search over a sorted list.
* `src/misoto/tower_of_hanoi.py` — recursive Tower of Hanoi "solver".

The Python code is shallowly embedded: Python `int` becomes `Int`, list
indexing becomes an `Option`-valued lookup that mirrors Python's semantics
(negative indices wrap, out-of-range raises), and the possibility of an
`IndexError` is made explicit with `Except Unit`.
-/

namespace Misoto

/-- Python list indexing `arr[i]`: a nonnegative index reads position `i`,
a negative index wraps to `len(arr) + i`, anything out of range raises
`IndexError` (modelled as `none`). -/
def pyIdx {α : Type} (arr : List α) (i : Int) : Option α :=
  if 0 ≤ i then arr[i.toNat]?
  else if 0 ≤ (arr.length : Int) + i then arr[((arr.length : Int) + i).toNat]?
  else none

/-- The `while low <= high` loop of `binary_search` in
`src/misoto/binary_search.py`, embedded as a recursion on the loop state
`(low, high)`:

```python
while low <= high:
    mid = (low + high) // 2
    if arr[mid] == target:
        return mid
    elif arr[mid] < target:
        low = mid + 1
    else:
        high = mid - 1
return None
```

Python's `//` is floor division; for the literal positive divisor `2` this
coincides with Lean's Euclidean `/` on `Int` at every input.  The result is
`.error ()` when an index access would raise `IndexError`, `.ok (some i)` for
`return mid`, and `.ok none` for the final `return None`. -/
def bsLoop {α : Type} [LinearOrder α] (arr : List α) (target : α)
    (low high : Int) : Except Unit (Option Int) :=
  if low ≤ high then
    match pyIdx arr ((low + high) / 2) with
    | none => .error ()
    | some v =>
      if v = target then .ok (some ((low + high) / 2))
      else if v < target then bsLoop arr target ((low + high) / 2 + 1) high
      else bsLoop arr target low ((low + high) / 2 - 1)
  else .ok none
termination_by (high + 1 - low).toNat
decreasing_by
  all_goals omega

/-- `binary_search(arr, target)` from `src/misoto/binary_search.py`:
`low = 0`, `high = len(arr) - 1`, then the loop. -/
def binary_search {α : Type} [LinearOrder α] (arr : List α) (target : α) :
    Except Unit (Option Int) :=
  bsLoop arr target 0 ((arr.length : Int) - 1)

/-- The same loop instrumented with an iteration budget: `none` means the
budget was exhausted before the loop finished.  Used to state that the loop
terminates within a concrete number of iterations. -/
def bsLoopFuel {α : Type} [LinearOrder α] (fuel : Nat) (arr : List α)
    (target : α) (low high : Int) : Option (Except Unit (Option Int)) :=
  match fuel with
  | 0 => none
  | fuel + 1 =>
    if low ≤ high then
      match pyIdx arr ((low + high) / 2) with
      | none => some (.error ())
      | some v =>
        if v = target then some (.ok (some ((low + high) / 2)))
        else if v < target then bsLoopFuel fuel arr target ((low + high) / 2 + 1) high
        else bsLoopFuel fuel arr target low ((low + high) / 2 - 1)
    else some (.ok none)

/-- Trace embedding of `solve_tower` from `src/misoto/tower_of_hanoi.py`:

```python
def solve_tower(n, src, temp, dst):
    if n > 1:
        solve_tower(n-1, src, dst, temp)
        solve_tower(1, src, temp, dst)
        solve_tower(n-1, temp, dst, src)
```

The value of a call is the ordered list of moves the call emits.  The Python
function body contains no `print`, `yield`, list append or return value, so
no call emits a move of its own; a call's trace is exactly the concatenation
of its recursive calls' traces, and the `n <= 1` case (an empty branch)
contributes `[]`.  Totality of this definition (well-founded recursion on
`n.toNat`) is the termination argument for the Python recursion. -/
def solve_tower (n : Int) (src temp dst : Char) : List (Char × Char) :=
  if n > 1 then
    solve_tower (n - 1) src dst temp ++ solve_tower 1 src temp dst ++
      solve_tower (n - 1) temp dst src
  else []
termination_by n.toNat
decreasing_by
  all_goals omega

/-- `solve_tower` instrumented with a recursion-depth budget: `none` means
the budget was exhausted.  Used to state that the recursion terminates within
depth `n + 1`. -/
def solve_towerFuel (fuel : Nat) (n : Int) (src temp dst : Char) :
    Option (List (Char × Char)) :=
  match fuel with
  | 0 => none
  | fuel + 1 =>
    if n > 1 then
      match solve_towerFuel fuel (n - 1) src dst temp,
          solve_towerFuel fuel 1 src temp dst,
          solve_towerFuel fuel (n - 1) temp dst src with
      | some a, some b, some c => some (a ++ b ++ c)
      | _, _, _ => none
    else some []

/-! ### Helper lemmas -/

lemma pyIdx_of_nonneg {α : Type} (arr : List α) {i : Int} (h : 0 ≤ i) :
    pyIdx arr i = arr[i.toNat]? := by
  simp [pyIdx, h]

/-- Inside the loop the probe index stays inside the window, so with
`0 ≤ low` and `high ≤ len - 1` the access is in bounds and succeeds. -/
lemma pyIdx_mid {α : Type} (arr : List α) {low high : Int} (hlh : low ≤ high)
    (hl : 0 ≤ low) (hh : high ≤ (arr.length : Int) - 1) :
    ∃ hm : ((low + high) / 2).toNat < arr.length,
      pyIdx arr ((low + high) / 2) = some (arr[((low + high) / 2).toNat]) := by
  have hm : ((low + high) / 2).toNat < arr.length := by omega
  exact ⟨hm, by rw [pyIdx_of_nonneg arr (by omega), List.getElem?_eq_getElem hm]⟩

/-- The loop never raises `IndexError` while the window is inside the list. -/
lemma bsLoop_no_error {α : Type} [LinearOrder α] (arr : List α) (t : α) :
    ∀ (k : Nat) (low high : Int), (high + 1 - low).toNat ≤ k → 0 ≤ low →
      high ≤ (arr.length : Int) - 1 → bsLoop arr t low high ≠ .error () := by
  intro k
  induction k with
  | zero =>
    intro low high hk hl hh
    rw [bsLoop, if_neg (by omega : ¬ low ≤ high)]
    simp
  | succ k ih =>
    intro low high hk hl hh
    rw [bsLoop]
    by_cases hlh : low ≤ high
    · simp only [if_pos hlh]
      obtain ⟨hm, hpy⟩ := pyIdx_mid arr hlh hl hh
      rw [hpy]
      by_cases hv : arr[((low + high) / 2).toNat] = t
      · simp [hv]
      · by_cases hv2 : arr[((low + high) / 2).toNat] < t
        · simpa [hv, hv2] using ih ((low + high) / 2 + 1) high (by omega) (by omega) hh
        · simpa [hv, hv2] using ih low ((low + high) / 2 - 1) (by omega) hl (by omega)
    · simp [hlh]

/-- Any index the loop returns points at an element equal to the target
(no sortedness needed: the returned index was compared for equality). -/
lemma bsLoop_found {α : Type} [LinearOrder α] (arr : List α) (t : α) :
    ∀ (k : Nat) (low high i : Int), (high + 1 - low).toNat ≤ k → 0 ≤ low →
      bsLoop arr t low high = .ok (some i) →
      0 ≤ i ∧ i.toNat < arr.length ∧ arr[i.toNat]? = some t := by
  intro k
  induction k with
  | zero =>
    intro low high i hk hl hres
    rw [bsLoop, if_neg (by omega : ¬ low ≤ high)] at hres
    exact absurd hres (by simp)
  | succ k ih =>
    intro low high i hk hl hres
    rw [bsLoop] at hres
    by_cases hlh : low ≤ high
    · rw [if_pos hlh] at hres
      cases hpy : pyIdx arr ((low + high) / 2) with
      | none => rw [hpy] at hres; exact absurd hres (by simp)
      | some v =>
        rw [hpy] at hres
        have hv' : arr[((low + high) / 2).toNat]? = some v := by
          rw [← pyIdx_of_nonneg arr (by omega : (0:Int) ≤ (low + high) / 2)]
          exact hpy
        by_cases hv : v = t
        · simp only [hv, if_pos rfl] at hres
          have hi : i = (low + high) / 2 := by
            have := hres
            simp at this
            omega
          subst hi
          exact ⟨by omega, by
            obtain ⟨hlen, -⟩ := List.getElem?_eq_some.mp hv'
            exact ⟨hlen, by rw [hv'] ; rw [hv]⟩⟩
        · by_cases hv2 : v < t
          · simp only [hv, hv2, if_neg, if_pos, reduceIte] at hres
            exact ih ((low + high) / 2 + 1) high i (by omega) (by omega) hres
          · simp only [hv, hv2, reduceIte] at hres
            exact ih low ((low + high) / 2 - 1) i (by omega) hl hres
    · rw [if_neg hlh] at hres
      exact absurd hres (by simp)

/-- A list sorted in non-decreasing order is monotone in its indices. -/
lemma sorted_get_le {α : Type} [LinearOrder α] {arr : List α}
    (hs : arr.Sorted (· ≤ ·)) (a b : Fin arr.length) (hab : a ≤ b) :
    arr.get a ≤ arr.get b :=
  hs.rel_get_of_le hab

/-- If the target occurs at some position inside the current window, the loop
finds an occurrence (the classical binary-search invariant). -/
lemma bsLoop_mem {α : Type} [LinearOrder α] (arr : List α) (t : α)
    (hs : arr.Sorted (· ≤ ·)) :
    ∀ (k : Nat) (low high : Int), (high + 1 - low).toNat ≤ k → 0 ≤ low →
      high ≤ (arr.length : Int) - 1 →
      (∃ j : Nat, j < arr.length ∧ low ≤ (j : Int) ∧ (j : Int) ≤ high ∧
        arr[j]? = some t) →
      ∃ i : Int, bsLoop arr t low high = .ok (some i) := by
  intro k
  induction k with
  | zero =>
    intro low high hk hl hh hj
    obtain ⟨j, hj, hj1, hj2, hjt⟩ := hj
    omega
  | succ k ih =>
    intro low high hk hl hh hj
    obtain ⟨j, hj, hj1, hj2, hjt⟩ := hj
    have hjget : arr.get ⟨j, hj⟩ = t := by
      obtain ⟨h1, h2⟩ := List.getElem?_eq_some.mp hjt
      simpa [List.get_eq_getElem] using h2
    have hlh : low ≤ high := by omega
    rw [bsLoop, if_pos hlh]
    obtain ⟨hm, hpy⟩ := pyIdx_mid arr hlh hl hh
    rw [hpy]
    by_cases hv : arr[((low + high) / 2).toNat] = t
    · exact ⟨(low + high) / 2, by simp [hv]⟩
    · by_cases hv2 : arr[((low + high) / 2).toNat] < t
      · have hjm : (low + high) / 2 + 1 ≤ (j : Int) := by
          by_contra hcon
          have hle : j ≤ ((low + high) / 2).toNat := by omega
          have := sorted_get_le hs ⟨j, hj⟩ ⟨((low + high) / 2).toNat, hm⟩
            (by simpa using hle)
          rw [hjget] at this
          simp only [List.get_eq_getElem] at this
          exact absurd (lt_of_lt_of_le hv2 this) (lt_irrefl _)
        have hrec := ih ((low + high) / 2 + 1) high (by omega) (by omega) hh
          ⟨j, hj, hjm, hj2, hjt⟩
        simpa [hv, hv2] using hrec
      · have hv3 : t < arr[((low + high) / 2).toNat] :=
          lt_of_le_of_ne (not_lt.mp hv2) (fun h => hv h.symm)
        have hjm : (j : Int) ≤ (low + high) / 2 - 1 := by
          by_contra hcon
          have hle : ((low + high) / 2).toNat ≤ j := by omega
          have := sorted_get_le hs ⟨((low + high) / 2).toNat, hm⟩ ⟨j, hj⟩
            (by simpa using hle)
          rw [hjget] at this
          simp only [List.get_eq_getElem] at this
          exact absurd (lt_of_lt_of_le hv3 this) (lt_irrefl _)
        have hrec := ih low ((low + high) / 2 - 1) (by omega) hl (by omega)
          ⟨j, hj, hj1, hjm, hjt⟩
        simpa [hv, hv2] using hrec

/-- If the target occurs nowhere in the list, the loop reports `None`
(no sortedness needed: every probe fails the equality test). -/
lemma bsLoop_not_mem {α : Type} [LinearOrder α] (arr : List α) (t : α)
    (hnt : t ∉ arr) :
    ∀ (k : Nat) (low high : Int), (high + 1 - low).toNat ≤ k → 0 ≤ low →
      high ≤ (arr.length : Int) - 1 → bsLoop arr t low high = .ok none := by
  intro k
  induction k with
  | zero =>
    intro low high hk hl hh
    rw [bsLoop, if_neg (by omega : ¬ low ≤ high)]
  | succ k ih =>
    intro low high hk hl hh
    rw [bsLoop]
    by_cases hlh : low ≤ high
    · rw [if_pos hlh]
      obtain ⟨hm, hpy⟩ := pyIdx_mid arr hlh hl hh
      rw [hpy]
      have hv : arr[((low + high) / 2).toNat] ≠ t := by
        intro h
        exact hnt (h ▸ List.getElem_mem hm)
      by_cases hv2 : arr[((low + high) / 2).toNat] < t
      · simpa [hv, hv2] using ih ((low + high) / 2 + 1) high (by omega) (by omega) hh
      · simpa [hv, hv2] using ih low ((low + high) / 2 - 1) (by omega) hl (by omega)
    · rw [if_neg hlh]

/-- The interval width strictly decreases every iteration, so any iteration
budget exceeding the initial width is enough: the instrumented loop never
runs out and agrees with the loop. -/
lemma bsLoopFuel_eq {α : Type} [LinearOrder α] (arr : List α) (t : α) :
    ∀ (fuel : Nat) (low high : Int), (high + 1 - low).toNat < fuel →
      bsLoopFuel fuel arr t low high = some (bsLoop arr t low high) := by
  intro fuel
  induction fuel with
  | zero => intro low high hk; omega
  | succ fuel ih =>
    intro low high hk
    rw [bsLoopFuel, bsLoop]
    by_cases hlh : low ≤ high
    · simp only [if_pos hlh]
      cases hpy : pyIdx arr ((low + high) / 2) with
      | none => rfl
      | some v =>
        by_cases hv : v = t
        · simp [hv]
        · by_cases hv2 : v < t
          · simpa [hv, hv2] using ih ((low + high) / 2 + 1) high (by omega)
          · simpa [hv, hv2] using ih low ((low + high) / 2 - 1) (by omega)
    · simp [hlh]

/-- Every call of `solve_tower` returns the empty move list: the Python body
contains no emission, so the traces of the recursive calls concatenate to
nothing, by induction on `n`. -/
lemma solve_tower_eq_nil : ∀ (n : Int) (src temp dst : Char),
    solve_tower n src temp dst = [] := by
  have key : ∀ (k : Nat) (n : Int), n.toNat ≤ k → ∀ (src temp dst : Char),
      solve_tower n src temp dst = [] := by
    intro k
    induction k with
    | zero =>
      intro n hk src temp dst
      rw [solve_tower, if_neg (by omega : ¬ n > 1)]
    | succ k ih =>
      intro n hk src temp dst
      rw [solve_tower]
      by_cases h : n > 1
      · rw [if_pos h, ih (n - 1) (by omega), ih 1 (by omega),
          ih (n - 1) (by omega)]
        rfl
      · rw [if_neg h]
  intro n src temp dst
  exact key n.toNat n le_rfl src temp dst

/-- A recursion-depth budget exceeding `n` is enough for the instrumented
`solve_tower`: it never runs out and agrees with `solve_tower`. -/
lemma solve_towerFuel_eq : ∀ (fuel : Nat) (n : Int), n.toNat < fuel →
    ∀ (src temp dst : Char),
      solve_towerFuel fuel n src temp dst = some (solve_tower n src temp dst) := by
  intro fuel
  induction fuel with
  | zero => intro n hk; omega
  | succ fuel ih =>
    intro n hk src temp dst
    rw [solve_towerFuel, solve_tower]
    by_cases h : n > 1
    · simp only [if_pos h]
      rw [ih (n - 1) (by omega), ih 1 (by omega), ih (n - 1) (by omega)]
    · simp [h]

/-! ### Claim theorems -/

/-- C1 (counterexample): the spec claims `solve_tower(n, A, B, C)` emits
`2 ^ n - 1` moves, but the Python function emits no move anywhere (there is
no print, append or yield in its body), so at the failing input `n = 1` it
emits `0` moves instead of `2 ^ 1 - 1 = 1`. -/
theorem C1_solve_tower_emits_no_move :
    solve_tower 1 'A' 'B' 'C' = [] ∧
      (solve_tower 1 'A' 'B' 'C').length ≠ 2 ^ 1 - 1 := by
  rw [solve_tower_eq_nil]
  exact ⟨rfl, by decide⟩

/-- C2 (counterexample): the spec claims `solve_tower(1, 'A', 'B', 'C')`
produces the single move `(A, C)`, but the `n = 1` call falls outside the
`n > 1` branch and its body emits nothing, so the produced sequence is
empty, not `[(A, C)]`. -/
theorem C2_solve_tower_base_case_empty :
    solve_tower 1 'A' 'B' 'C' = [] ∧
      solve_tower 1 'A' 'B' 'C' ≠ [('A', 'C')] := by
  rw [solve_tower_eq_nil]
  exact ⟨rfl, by decide⟩

/-- C3 (counterexample): the spec claims that for `n > 1` the move sequence
is `(n-1 moves source→auxiliary) ++ [(source, destination)] ++ (n-1 moves
auxiliary→destination)`; at the failing input `n = 2` with pegs `A B C` the
code produces `[]` while the claimed decomposition contains the middle move
`(A, C)` (and the code's third recursive call
`solve_tower(n-1, temp, dst, src)` even targets the source peg rather than
the destination). -/
theorem C3_solve_tower_not_decomposed :
    solve_tower 2 'A' 'B' 'C' ≠
      solve_tower 1 'A' 'C' 'B' ++ [('A', 'C')] ++ solve_tower 1 'B' 'A' 'C' := by
  rw [solve_tower_eq_nil, solve_tower_eq_nil, solve_tower_eq_nil]
  decide

/-- C4: on a list sorted in non-decreasing order, `binary_search` finds any
present target: it returns `Except.ok (some i)` with `i` a valid index whose
element equals the target. -/
theorem C4_binary_search_finds_present {α : Type} [LinearOrder α]
    (arr : List α) (t : α) (hs : arr.Sorted (· ≤ ·)) (hmem : t ∈ arr) :
    ∃ i : Int, binary_search arr t = .ok (some i) ∧ 0 ≤ i ∧
      i.toNat < arr.length ∧ arr[i.toNat]? = some t := by
  obtain ⟨j, hj, hjt⟩ := List.mem_iff_getElem.mp hmem
  obtain ⟨i, hi⟩ := bsLoop_mem arr t hs arr.length 0 ((arr.length : Int) - 1)
    (by omega) le_rfl (by omega)
    ⟨j, hj, by omega, by omega, by rw [List.getElem?_eq_getElem hj, hjt]⟩
  exact ⟨i, hi,
    bsLoop_found arr t arr.length 0 ((arr.length : Int) - 1) i (by omega)
      le_rfl hi⟩

/-- C4 witness: the spec's concrete scenario, target 5 in `[1,3,5,7,9]`. -/
theorem C4_witness : ∃ i : Int,
    binary_search [1, 3, 5, 7, 9] (5 : Int) = .ok (some i) ∧ 0 ≤ i ∧
      i.toNat < ([1, 3, 5, 7, 9] : List Int).length ∧
      ([1, 3, 5, 7, 9] : List Int)[i.toNat]? = some 5 :=
  C4_binary_search_finds_present [1, 3, 5, 7, 9] 5 (by decide) (by decide)

/-- C5: on a sorted list, `binary_search` reports an absent target with the
absence marker `Except.ok none`; it raises nothing (the only other outcome,
`Except.error`, is ruled out because every probe is in bounds). -/
theorem C5_binary_search_absent {α : Type} [LinearOrder α]
    (arr : List α) (t : α) (hs : arr.Sorted (· ≤ ·)) (hnt : t ∉ arr) :
    binary_search arr t = .ok none :=
  bsLoop_not_mem arr t hnt arr.length 0 ((arr.length : Int) - 1)
    (by omega) le_rfl (by omega)

/-- C5 witness: the spec's concrete scenario, target 4 in `[1,3,5,7,9]`. -/
theorem C5_witness : binary_search [1, 3, 5, 7, 9] (4 : Int) = .ok none :=
  C5_binary_search_absent [1, 3, 5, 7, 9] 4 (by decide) (by decide)

/-- C6: on the empty list `binary_search` returns the absence marker at
once: `high` is initialised to `-1`, the guard `0 ≤ -1` fails, and an
iteration budget of one guard evaluation already suffices, so no element is
ever compared. -/
theorem C6_binary_search_empty {α : Type} [LinearOrder α] (t : α) :
    binary_search ([] : List α) t = .ok none ∧
      bsLoopFuel 1 ([] : List α) t 0 ((([] : List α).length : Int) - 1) =
        some (.ok none) := by
  constructor
  · simp [binary_search, bsLoop]
  · simp [bsLoopFuel]

/-- C7: the loop of `binary_search` terminates on every input, sorted or
not: the window width shrinks every iteration, so a budget of
`arr.length + 1` iterations is never exhausted and the instrumented loop
completes with the same result. -/
theorem C7_binary_search_terminates {α : Type} [LinearOrder α]
    (arr : List α) (t : α) :
    bsLoopFuel (arr.length + 1) arr t 0 ((arr.length : Int) - 1) =
      some (binary_search arr t) :=
  bsLoopFuel_eq arr t (arr.length + 1) 0 ((arr.length : Int) - 1) (by omega)

/-- C8: `binary_search` never performs an out-of-bounds access: on every
input the result is never the embedded `IndexError`, because the loop keeps
`0 ≤ low` and `high ≤ len - 1`, so each probe index `mid` is in bounds. -/
theorem C8_binary_search_access_in_bounds {α : Type} [LinearOrder α]
    (arr : List α) (t : α) : binary_search arr t ≠ .error () :=
  bsLoop_no_error arr t arr.length 0 ((arr.length : Int) - 1)
    (by omega) le_rfl (by omega)

/-- C9: with no sortedness assumption, whenever `binary_search` returns an
index rather than the absence marker, that index is in bounds and its
element equals the target. -/
theorem C9_binary_search_result_valid {α : Type} [LinearOrder α]
    (arr : List α) (t : α) (i : Int)
    (hres : binary_search arr t = .ok (some i)) :
    0 ≤ i ∧ i.toNat < arr.length ∧ arr[i.toNat]? = some t :=
  bsLoop_found arr t arr.length 0 ((arr.length : Int) - 1) i (by omega)
    le_rfl hres

/-- C9 witness: `binary_search [1,3,5,7,9] 5` returns index 2, which is in
bounds and holds 5. -/
theorem C9_witness :
    0 ≤ (2 : Int) ∧ (2 : Int).toNat < ([1, 3, 5, 7, 9] : List Int).length ∧
      ([1, 3, 5, 7, 9] : List Int)[(2 : Int).toNat]? = some 5 :=
  C9_binary_search_result_valid [1, 3, 5, 7, 9] 5 2
    (by simp [binary_search, bsLoop, pyIdx])

/-- C10: `solve_tower` terminates for every integer `n`, negative included:
a recursion-depth budget of `n.toNat + 1` is never exhausted (each recursive
call is guarded by `n > 1` and passes a strictly smaller count), and every
call returns normally with the empty move list — in particular each `n ≤ 1`
call returns immediately, emitting no moves and raising no error. -/
theorem C10_solve_tower_total (n : Int) (src temp dst : Char) :
    solve_towerFuel (n.toNat + 1) n src temp dst =
      some (solve_tower n src temp dst) ∧
      solve_tower n src temp dst = [] :=
  ⟨solve_towerFuel_eq (n.toNat + 1) n (by omega) src temp dst,
    solve_tower_eq_nil n src temp dst⟩

end Misoto
